import Mathlib

/-!
Shallow embedding of the process-memory write subsystem of the `bite`
debugger (`debugger/src/writemem.rs`), of the syscall-trace formatters
(`debugger/src/systrace.rs`), and proofs of the specification claims
about them.

Machine words are modelled as lists of byte values, remote and local
memory as functions from addresses to byte values, and the fallible
kernel primitives (`process_vm_writev`, `ptrace::read`, `ptrace::write`)
as oracles supplied through environment records.
-/

namespace Bite

/-- Byte-addressed memory: maps an address to the byte stored there. -/
abbrev Mem := Nat → Nat

/-- `MemoryOp` from `crate::memory`: a remote base address, a local
buffer pointer (modelled as an address into the debugger's own memory)
and a byte count. -/
structure MemoryOp where
  remote_base : Nat
  local_ptr : Nat
  local_len : Nat
  deriving DecidableEq

/-- `WORD_SIZE = size_of::<usize>()`, 8 on x86_64 (writemem.rs line 9). -/
def WORD_SIZE : Nat := 8

/-- The advancement performed at the end of `WordSizedOps::next`
(writemem.rs lines 198-200): consume `g` bytes from the front of the op. -/
def MemoryOp.advance (op : MemoryOp) (g : Nat) : MemoryOp :=
  { remote_base := op.remote_base + g, local_ptr := op.local_ptr + g,
    local_len := op.local_len - g }

/-- The loop of the `WordSizedOps` iterator (writemem.rs lines 185-203),
unrolled with explicit fuel.  Each call to `next` returns `None` once
`local_len` is zero, and otherwise emits a chunk of
`group_size = min WORD_SIZE local_len` bytes and advances the op.
`fuel = local_len` suffices because each step consumes at least one byte
when the word size is positive. -/
def wordOpsAux (W : Nat) : Nat → MemoryOp → List MemoryOp
  | 0, _ => []
  | fuel + 1, op =>
    if op.local_len = 0 then []
    else
      let group_size := min W op.local_len
      { remote_base := op.remote_base, local_ptr := op.local_ptr,
        local_len := group_size } :: wordOpsAux W fuel (op.advance group_size)

/-- `MemoryOp::into_word_sized_ops` (writemem.rs lines 171-173), with the
resulting iterator collected into a list. -/
def MemoryOp.into_word_sized_ops (W : Nat) (op : MemoryOp) : List MemoryOp :=
  wordOpsAux W op.local_len op

/-- Closed form of the word decomposition: `ceil(L/W)` chunks, the `i`-th
starting `i*W` bytes into the op. -/
def wordChunks (W : Nat) (op : MemoryOp) : List MemoryOp :=
  (List.range ((op.local_len + W - 1) / W)).map fun i =>
    { remote_base := op.remote_base + i * W, local_ptr := op.local_ptr + i * W,
      local_len := min W (op.local_len - i * W) }

lemma wordChunks_nil (W : Nat) (op : MemoryOp) (hW : 0 < W)
    (h0 : op.local_len = 0) : wordChunks W op = [] := by
  have hdiv : (op.local_len + W - 1) / W = 0 := by
    apply Nat.div_eq_of_lt; omega
  simp [wordChunks, hdiv]

lemma wordChunks_cons (W : Nat) (op : MemoryOp) (hW : 0 < W)
    (h0 : op.local_len ≠ 0) :
    wordChunks W op =
      { remote_base := op.remote_base, local_ptr := op.local_ptr,
        local_len := min W op.local_len } ::
        wordChunks W (op.advance (min W op.local_len)) := by
  rcases Nat.lt_or_ge op.local_len W with hlt | hge
  · -- final short chunk: the advanced op is empty
    have hg : min W op.local_len = op.local_len := Nat.min_eq_right (Nat.le_of_lt hlt)
    have hdiv : (op.local_len + W - 1) / W = 1 :=
      Nat.div_eq_of_lt_le (by omega) (by omega)
    have hnil : wordChunks W (op.advance (min W op.local_len)) = [] := by
      apply wordChunks_nil W _ hW
      simp [MemoryOp.advance, hg]
    rw [hg] at hnil ⊢
    rw [hnil]
    unfold wordChunks
    rw [hdiv]
    simp [List.range_succ, hg]
  · -- full-word chunk followed by the rest
    have hg : min W op.local_len = W := Nat.min_eq_left hge
    have hdiv : (op.local_len + W - 1) / W = (op.local_len - 1) / W + 1 := by
      have hsplit : op.local_len + W - 1 = (op.local_len - 1) + W := by omega
      rw [hsplit, Nat.add_div_right _ hW]
    have hdiv' : ((op.advance W).local_len + W - 1) / W = (op.local_len - 1) / W := by
      show (op.local_len - W + W - 1) / W = (op.local_len - 1) / W
      rcases Nat.eq_or_lt_of_le hge with heq | hlt'
      · have e1 : op.local_len - W = 0 := by omega
        rw [e1, Nat.div_eq_of_lt (by omega), Nat.div_eq_of_lt (by omega)]
      · congr 1
        omega
    rw [hg]
    show wordChunks W op = _ :: wordChunks W (op.advance W)
    unfold wordChunks
    rw [hdiv, hdiv', List.range_succ_eq_map]
    simp only [List.map_cons, List.map_map, List.cons.injEq]
    refine ⟨?_, ?_⟩
    · simp [hg]
    · apply List.map_congr_left
      intro i _
      simp only [Function.comp_apply, MemoryOp.advance, MemoryOp.mk.injEq,
        Nat.succ_eq_add_one]
      refine ⟨by ring, by ring, ?_⟩
      have e : (i + 1) * W = W + i * W := by ring
      rw [e, ← Nat.sub_sub]

lemma wordOpsAux_eq_chunks (W : Nat) (hW : 0 < W) :
    ∀ fuel op, op.local_len ≤ fuel → wordOpsAux W fuel op = wordChunks W op := by
  intro fuel
  induction fuel with
  | zero =>
    intro op hop
    have h0 : op.local_len = 0 := Nat.le_zero.mp hop
    rw [wordChunks_nil W op hW h0]
    simp [wordOpsAux, h0]
  | succ fuel ih =>
    intro op hop
    by_cases h0 : op.local_len = 0
    · rw [wordChunks_nil W op hW h0]
      simp [wordOpsAux, h0]
    · rw [wordChunks_cons W op hW h0]
      have hg1 : 1 ≤ min W op.local_len := by
        have : 1 ≤ op.local_len := Nat.one_le_iff_ne_zero.mpr h0
        exact Nat.le_min.mpr ⟨hW, this⟩
      have hadv : (op.advance (min W op.local_len)).local_len ≤ fuel := by
        simp only [MemoryOp.advance]
        omega
      rw [show wordOpsAux W (fuel + 1) op =
          { remote_base := op.remote_base, local_ptr := op.local_ptr,
            local_len := min W op.local_len } ::
            wordOpsAux W fuel (op.advance (min W op.local_len)) by
        simp [wordOpsAux, h0]]
      rw [ih _ hadv]

/-- The word decomposition in closed form. -/
theorem into_word_sized_ops_eq_chunks (W : Nat) (op : MemoryOp) (hW : 0 < W) :
    op.into_word_sized_ops W = wordChunks W op :=
  wordOpsAux_eq_chunks W hW op.local_len op (Nat.le_refl _)

lemma sum_wordOpsAux (W : Nat) (hW : 0 < W) :
    ∀ fuel op, op.local_len ≤ fuel →
      ((wordOpsAux W fuel op).map MemoryOp.local_len).sum = op.local_len := by
  intro fuel
  induction fuel with
  | zero =>
    intro op hop
    have h0 : op.local_len = 0 := Nat.le_zero.mp hop
    simp [wordOpsAux, h0]
  | succ fuel ih =>
    intro op hop
    by_cases h0 : op.local_len = 0
    · simp [wordOpsAux, h0]
    · have hstep : wordOpsAux W (fuel + 1) op =
          { remote_base := op.remote_base, local_ptr := op.local_ptr,
            local_len := min W op.local_len } ::
            wordOpsAux W fuel (op.advance (min W op.local_len)) := by
        simp [wordOpsAux, h0]
      have hadv : (op.advance (min W op.local_len)).local_len ≤ fuel := by
        simp only [MemoryOp.advance]
        omega
      rw [hstep]
      simp only [List.map_cons, List.sum_cons]
      rw [ih _ hadv]
      simp only [MemoryOp.advance]
      omega

lemma wordChunks_getElem? (W : Nat) (op : MemoryOp) (i : Nat)
    (hi : i < (op.local_len + W - 1) / W) :
    (wordChunks W op)[i]? =
      some { remote_base := op.remote_base + i * W, local_ptr := op.local_ptr + i * W,
             local_len := min W (op.local_len - i * W) } := by
  unfold wordChunks
  simp [List.getElem?_map, List.getElem?_range, hi]

/-- Every chunk of the word decomposition has a positive length of at most
`W` bytes: the iterator never emits an empty or oversized chunk. -/
lemma into_word_sized_ops_mem_len (W : Nat) (hW : 0 < W) (op : MemoryOp) :
    ∀ sub ∈ op.into_word_sized_ops W, 0 < sub.local_len ∧ sub.local_len ≤ W := by
  intro sub hsub
  rw [into_word_sized_ops_eq_chunks W op hW] at hsub
  unfold wordChunks at hsub
  simp only [List.mem_map, List.mem_range] at hsub
  obtain ⟨i, hi, rfl⟩ := hsub
  refine ⟨?_, Nat.min_le_left _ _⟩
  have h2 : (i + 1) * W ≤ op.local_len + W - 1 :=
    (Nat.le_div_iff_mul_le hW).mp (Nat.succ_le_of_lt hi)
  have h3 : i * W + W ≤ op.local_len + W - 1 := by
    rw [show (i + 1) * W = i * W + W by ring] at h2
    exact h2
  simp only []
  omega

/-- C1, stated over the embedding: the word decomposition of an op of
length `L` consists of `ceil(L/W)` sub-ops whose lengths sum to `L`, each
of length at most `W`, all but possibly the last of length exactly `W`,
the `i`-th sub-op starting at the original remote and local addresses
advanced by `i*W`; a zero-length op yields no sub-ops. -/
def wordOpsSpec (W : Nat) (op : MemoryOp) : Prop :=
  let subs := op.into_word_sized_ops W
  subs.length = (op.local_len + W - 1) / W ∧
  (subs.map MemoryOp.local_len).sum = op.local_len ∧
  (∀ i : Nat, ∀ sub ∈ subs[i]?,
      sub.local_len ≤ W ∧
      sub.remote_base = op.remote_base + i * W ∧
      sub.local_ptr = op.local_ptr + i * W) ∧
  (∀ i : Nat, i + 1 < subs.length → ∀ sub ∈ subs[i]?, sub.local_len = W) ∧
  (op.local_len = 0 → subs = [])

/-- C1: for every `MemoryOp` of length `L` and word size `W > 0`,
`into_word_sized_ops` yields exactly `ceil(L/W)` sub-ops whose lengths sum
to `L`, each of length at most `W` with only the last possibly shorter,
contiguous with no gaps or overlaps (the `i`-th sub-op's `remote_base` and
local pointer are the originals advanced by `i*W`); a zero-length op
yields no sub-ops. -/
theorem into_word_sized_ops_correct (W : Nat) (op : MemoryOp) (hW : 0 < W) :
    wordOpsSpec W op := by
  have he := into_word_sized_ops_eq_chunks W op hW
  unfold wordOpsSpec
  refine ⟨?_, ?_, ?_, ?_, ?_⟩
  · rw [he]
    simp [wordChunks]
  · exact sum_wordOpsAux W hW op.local_len op (Nat.le_refl _)
  · intro i sub hsub
    rw [he] at hsub
    rcases Nat.lt_or_ge i ((op.local_len + W - 1) / W) with hi | hi
    · rw [wordChunks_getElem? W op i hi] at hsub
      simp only [Option.mem_def, Option.some.injEq] at hsub
      subst hsub
      exact ⟨Nat.min_le_left _ _, rfl, rfl⟩
    · rw [List.getElem?_eq_none (by simpa [wordChunks] using hi)] at hsub
      simp at hsub
  · intro i hlen sub hsub
    rw [he] at hsub hlen
    have hn : (wordChunks W op).length = (op.local_len + W - 1) / W := by
      simp [wordChunks]
    rw [hn] at hlen
    have hi : i < (op.local_len + W - 1) / W := by omega
    rw [wordChunks_getElem? W op i hi] at hsub
    simp only [Option.mem_def, Option.some.injEq] at hsub
    subst hsub
    have h2 : (i + 2) * W ≤ op.local_len + W - 1 :=
      (Nat.le_div_iff_mul_le hW).mp (by omega)
    have h3 : i * W + 2 * W ≤ op.local_len + W - 1 := by
      rw [show (i + 2) * W = i * W + 2 * W by ring] at h2
      exact h2
    simp only []
    omega
  · intro h0
    rw [he]
    exact wordChunks_nil W op hW h0

/-- Witness for C1 at word size 8 and a 20-byte op. -/
theorem into_word_sized_ops_correct_wit :
    0 < 8 ∧ wordOpsSpec 8 { remote_base := 4096, local_ptr := 512, local_len := 20 } :=
  ⟨by decide, into_word_sized_ops_correct 8
    { remote_base := 4096, local_ptr := 512, local_len := 20 } (by decide)⟩

/-- Modelled from the spec: the crate-root `Error` enum is not among the
provided sources (only its uses are).  §3 lists
`IncompleteRead/IncompleteWrite{requested, transferred}` and fatal
transfer failures; `writemem.rs` line 115 constructs
`Error::IncompleteRead { req, read }` and propagates nix kernel errors
with `?`, modelled here by the `nix` constructor. -/
inductive Error where
  | IncompleteRead (req : Nat) (read : Nat)
  | IncompleteWrite (req : Nat) (written : Nat)
  | nix (errno : Nat)
  deriving DecidableEq

/-- The `n` bytes of memory starting at `addr`, as a list. -/
def bytesAt (mem : Mem) (addr n : Nat) : List Nat :=
  (List.range n).map fun i => mem (addr + i)

/-- Store a list of bytes at `addr`, leaving every other address
unchanged.  Models `ptrace::write` of one word, the
`to_ne_bytes`/`from_ne_bytes` round trip cancelling out. -/
def storeBytes (mem : Mem) (addr : Nat) (bytes : List Nat) : Mem :=
  fun x => if addr ≤ x ∧ x - addr < bytes.length then bytes.getD (x - addr) 0 else mem x

/-- Oracle for the `ptrace::read` / `ptrace::write` word primitives:
whether a peek/poke at a given remote address succeeds, and which
`Error` the failed call converts into. -/
structure PtraceEnv where
  readOk : Nat → Bool
  writeOk : Nat → Bool
  readErr : Nat → Error
  writeErr : Nat → Error

/-- Result of the write paths: a panic (failed `assert!` or
`panic!`), a returned error together with the remote memory at that
point, or success with the final remote memory. -/
inductive WriteOutcome where
  | panic
  | error (e : Error) (mem : Mem)
  | ok (mem : Mem)

/-- The body of the loop of `WriteMemory::write_ptrace` (writemem.rs
lines 125-149) for a single word-sized op: assert the op fits in a word;
for a sub-word op read the existing remote word, splice the local bytes
over its first `local_len` bytes and write the whole word back; for a
full word write the local word directly. -/
def ptraceWriteOp (W : Nat) (env : PtraceEnv) (localMem mem : Mem)
    (op : MemoryOp) : WriteOutcome :=
  if op.local_len ≤ W then
    if op.local_len < W then
      if env.readOk op.remote_base then
        let word := bytesAt mem op.remote_base W
        let src_bytes := bytesAt localMem op.local_ptr op.local_len
        if env.writeOk op.remote_base then
          .ok (storeBytes mem op.remote_base (src_bytes ++ word.drop op.local_len))
        else .error (env.writeErr op.remote_base) mem
      else .error (env.readErr op.remote_base) mem
    else
      if env.writeOk op.remote_base then
        .ok (storeBytes mem op.remote_base (bytesAt localMem op.local_ptr W))
      else .error (env.writeErr op.remote_base) mem
  else .panic

/-- `WriteMemory::write_ptrace` (writemem.rs lines 123-152): run the
word-sized ops in order, stopping at the first failed kernel call and
propagating its error. -/
def write_ptrace (W : Nat) (env : PtraceEnv) (localMem : Mem) :
    Mem → List MemoryOp → WriteOutcome
  | mem, [] => .ok mem
  | mem, op :: rest =>
    match ptraceWriteOp W env localMem mem op with
    | .ok mem2 => write_ptrace W env localMem mem2 rest
    | .error e m => .error e m
    | .panic => .panic

lemma bytesAt_length (mem : Mem) (addr n : Nat) : (bytesAt mem addr n).length = n := by
  simp [bytesAt]

lemma bytesAt_getD (mem : Mem) (addr n k : Nat) (hk : k < n) :
    (bytesAt mem addr n).getD k 0 = mem (addr + k) := by
  simp [bytesAt, List.getD_eq_getElem?_getD, List.getElem?_map, List.getElem?_range, hk]

/-- Pointwise description of the spliced sub-word (or full-word) store:
the requested bytes come from the local buffer, everything else is the
old remote memory. -/
lemma storeSpliced_point (W : Nat) (localMem mem : Mem) (op : MemoryOp)
    (hn : op.local_len ≤ W) (x : Nat) :
    storeBytes mem op.remote_base
        (bytesAt localMem op.local_ptr op.local_len ++
          (bytesAt mem op.remote_base W).drop op.local_len) x =
      if op.remote_base ≤ x ∧ x - op.remote_base < op.local_len then
        localMem (op.local_ptr + (x - op.remote_base))
      else mem x := by
  have hsrc : (bytesAt localMem op.local_ptr op.local_len).length = op.local_len :=
    bytesAt_length _ _ _
  have hdrop : ((bytesAt mem op.remote_base W).drop op.local_len).length =
      W - op.local_len := by
    simp [bytesAt]
  have htot : (bytesAt localMem op.local_ptr op.local_len ++
      (bytesAt mem op.remote_base W).drop op.local_len).length = W := by
    rw [List.length_append, hsrc, hdrop]
    omega
  unfold storeBytes
  by_cases h1 : op.remote_base ≤ x ∧ x - op.remote_base < op.local_len
  · rw [if_pos h1, if_pos (by rw [htot]; omega)]
    rw [List.getD_append _ _ _ _ (by rw [hsrc]; omega)]
    exact bytesAt_getD _ _ _ _ h1.2
  · rw [if_neg h1]
    by_cases h2 : op.remote_base ≤ x ∧ x - op.remote_base < W
    · rw [if_pos (by rw [htot]; omega)]
      rw [List.getD_append_right _ _ _ _ (by rw [hsrc]; omega)]
      rw [hsrc]
      rw [List.getD_eq_getElem?_getD, List.getElem?_drop, ← List.getD_eq_getElem?_getD]
      have he : op.local_len + (x - op.remote_base - op.local_len) = x - op.remote_base := by
        omega
      rw [he, bytesAt_getD _ _ _ _ h2.2]
      congr 1
      omega
    · rw [if_neg (by rw [htot]; omega)]

/-- C2: for a fallback chunk of length `n < W` whose `ptrace` read and
write both succeed, `write_ptrace`'s sub-word step reads the existing
remote word, splices the `n` local source bytes over its first `n` bytes
and writes the word back: afterwards the `n` requested bytes equal the
source bytes and every byte outside `[remote_base, remote_base + n)`
(in particular the other `W - n` bytes of the word) is unchanged. -/
theorem write_ptrace_subword_frame (W : Nat) (env : PtraceEnv) (localMem mem : Mem)
    (op : MemoryOp) (hn : op.local_len < W)
    (hr : env.readOk op.remote_base = true) (hw : env.writeOk op.remote_base = true) :
    ∃ mem2, ptraceWriteOp W env localMem mem op = .ok mem2 ∧
      (∀ x, op.remote_base ≤ x → x < op.remote_base + op.local_len →
        mem2 x = localMem (op.local_ptr + (x - op.remote_base))) ∧
      (∀ x, x < op.remote_base ∨ op.remote_base + op.local_len ≤ x → mem2 x = mem x) := by
  refine ⟨storeBytes mem op.remote_base
      (bytesAt localMem op.local_ptr op.local_len ++
        (bytesAt mem op.remote_base W).drop op.local_len), ?_, ?_, ?_⟩
  · simp [ptraceWriteOp, Nat.le_of_lt hn, hn, hr, hw]
  · intro x h1 h2
    rw [storeSpliced_point W localMem mem op (Nat.le_of_lt hn) x]
    rw [if_pos ⟨h1, by omega⟩]
  · intro x hx
    rw [storeSpliced_point W localMem mem op (Nat.le_of_lt hn) x]
    rw [if_neg (by omega)]

/-- Witness for C2: a 3-byte chunk inside an 8-byte word. -/
theorem write_ptrace_subword_frame_wit :
    (3 < 8 ∧
      (fun _ => true) 256 = true ∧ (fun _ => true) 256 = true) ∧
    ∃ mem2,
      ptraceWriteOp 8
          { readOk := fun _ => true, writeOk := fun _ => true,
            readErr := fun _ => .nix 5, writeErr := fun _ => .nix 14 }
          (fun a => a % 251) (fun a => a % 256)
          { remote_base := 256, local_ptr := 40, local_len := 3 } = .ok mem2 ∧
      (∀ x, 256 ≤ x → x < 256 + 3 → mem2 x = (fun a => a % 251) (40 + (x - 256))) ∧
      (∀ x, x < 256 ∨ 256 + 3 ≤ x → mem2 x = (fun a => a % 256) x) :=
  ⟨⟨by decide, rfl, rfl⟩,
    write_ptrace_subword_frame 8
      { readOk := fun _ => true, writeOk := fun _ => true,
        readErr := fun _ => .nix 5, writeErr := fun _ => .nix 14 }
      (fun a => a % 251) (fun a => a % 256)
      { remote_base := 256, local_ptr := 40, local_len := 3 } (by decide) rfl rfl⟩

/-- Classification of one fallback step, independent of the memory
contents: the step panics, fails with a given error, or succeeds.
Success of the kernel calls depends only on the oracle and the remote
address, never on the bytes being moved. -/
inductive StepStatus where
  | panic
  | fail (e : Error)
  | ok
  deriving DecidableEq

/-- Which way the `write_ptrace` loop body goes on a given op. -/
def opStatus (W : Nat) (env : PtraceEnv) (op : MemoryOp) : StepStatus :=
  if op.local_len ≤ W then
    if op.local_len < W then
      if env.readOk op.remote_base then
        if env.writeOk op.remote_base then .ok
        else .fail (env.writeErr op.remote_base)
      else .fail (env.readErr op.remote_base)
    else
      if env.writeOk op.remote_base then .ok
      else .fail (env.writeErr op.remote_base)
  else .panic

/-- Remote-memory effect of one successful fallback step. -/
def wordWriteEffect (W : Nat) (localMem mem : Mem) (op : MemoryOp) : Mem :=
  if op.local_len < W then
    storeBytes mem op.remote_base
      (bytesAt localMem op.local_ptr op.local_len ++
        (bytesAt mem op.remote_base W).drop op.local_len)
  else
    storeBytes mem op.remote_base (bytesAt localMem op.local_ptr W)

/-- Remote-memory effect of a list of successful fallback steps, applied
in order. -/
def wordWriteEffects (W : Nat) (localMem : Mem) : Mem → List MemoryOp → Mem
  | mem, [] => mem
  | mem, op :: rest =>
    wordWriteEffects W localMem (wordWriteEffect W localMem mem op) rest

lemma ptraceWriteOp_status (W : Nat) (env : PtraceEnv) (localMem mem : Mem)
    (op : MemoryOp) :
    ptraceWriteOp W env localMem mem op =
      match opStatus W env op with
      | .panic => .panic
      | .fail e => .error e mem
      | .ok => .ok (wordWriteEffect W localMem mem op) := by
  unfold ptraceWriteOp opStatus wordWriteEffect
  by_cases h1 : op.local_len ≤ W
  · by_cases h2 : op.local_len < W
    · by_cases h3 : env.readOk op.remote_base
      · by_cases h4 : env.writeOk op.remote_base
        · simp [h1, h2, h3, h4]
        · simp [h1, h2, h3, h4]
      · simp [h1, h2, h3]
    · by_cases h4 : env.writeOk op.remote_base
      · simp [h1, h2, h4]
      · simp [h1, h2, h4]
  · simp [h1]

lemma opStatus_eq_panic_iff (W : Nat) (env : PtraceEnv) (op : MemoryOp) :
    opStatus W env op = .panic ↔ W < op.local_len := by
  unfold opStatus
  split_ifs <;> simp <;> omega

/-- `write_ptrace` never hits the failed-assert panic when every op it is
fed fits inside one word. -/
lemma write_ptrace_no_panic_aux (W : Nat) (env : PtraceEnv) (localMem : Mem) :
    ∀ (ops : List MemoryOp) (mem : Mem),
      (∀ op ∈ ops, op.local_len ≤ W) →
      write_ptrace W env localMem mem ops ≠ .panic := by
  intro ops
  induction ops with
  | nil =>
    intro mem _
    simp [write_ptrace]
  | cons g rest ih =>
    intro mem h
    have hg : ¬ opStatus W env g = .panic := by
      rw [opStatus_eq_panic_iff]
      have := h g (List.mem_cons_self g rest)
      omega
    simp only [write_ptrace, ptraceWriteOp_status]
    cases hs : opStatus W env g with
    | panic => exact absurd hs hg
    | fail e => simp
    | ok =>
      simp only []
      exact ih _ fun op hop => h op (List.mem_cons_of_mem g hop)

/-- First-error semantics of the fallback loop: if the first `j` steps
succeed and the `j`-th fails, the loop returns that error with exactly
the first `j` word writes applied and nothing after attempted. -/
lemma write_ptrace_first_error (W : Nat) (env : PtraceEnv) (localMem : Mem) :
    ∀ (ops : List MemoryOp) (mem : Mem) (j : Nat) (e : Error) (hj : j < ops.length),
      (∀ i, (hi : i < j) → opStatus W env (ops.get ⟨i, by omega⟩) = .ok) →
      opStatus W env (ops.get ⟨j, hj⟩) = .fail e →
      write_ptrace W env localMem mem ops =
        .error e (wordWriteEffects W localMem mem (ops.take j)) := by
  intro ops
  induction ops with
  | nil =>
    intro mem j e hj
    simp at hj
  | cons g rest ih =>
    intro mem j e hj hok hfail
    cases j with
    | zero =>
      have hg : opStatus W env g = .fail e := by simpa using hfail
      simp only [write_ptrace, ptraceWriteOp_status, hg]
      simp [wordWriteEffects]
    | succ j =>
      have hg : opStatus W env g = .ok := by
        have := hok 0 (Nat.succ_pos j)
        simpa using this
      simp only [write_ptrace, ptraceWriteOp_status, hg]
      have hj' : j < rest.length := by simpa using hj
      have hok' : ∀ i, (hi : i < j) → opStatus W env (rest.get ⟨i, by omega⟩) = .ok := by
        intro i hi
        have := hok (i + 1) (by omega)
        simpa using this
      have hfail' : opStatus W env (rest.get ⟨j, hj'⟩) = .fail e := by
        simpa using hfail
      rw [ih (wordWriteEffect W localMem mem g) j e hj' hok' hfail']
      simp [wordWriteEffects]

/-- C10: every sub-op produced by `into_word_sized_ops` has
`0 < local_len ≤ WORD_SIZE`, so the `assert!(op.local_len <= WORD_SIZE)`
at the start of `write_ptrace`'s loop never fires when `write_ptrace` is
fed the flat-mapped word decomposition, as `apply()` feeds it. -/
theorem write_ptrace_assert_ok (env : PtraceEnv) (localMem mem : Mem)
    (ops : List MemoryOp) :
    (∀ sub ∈ ops.flatMap (MemoryOp.into_word_sized_ops WORD_SIZE),
        0 < sub.local_len ∧ sub.local_len ≤ WORD_SIZE) ∧
    write_ptrace WORD_SIZE env localMem mem
        (ops.flatMap (MemoryOp.into_word_sized_ops WORD_SIZE)) ≠ .panic := by
  have hmem : ∀ sub ∈ ops.flatMap (MemoryOp.into_word_sized_ops WORD_SIZE),
      0 < sub.local_len ∧ sub.local_len ≤ WORD_SIZE := by
    intro sub hsub
    rw [List.mem_flatMap] at hsub
    obtain ⟨op, hop, hsub⟩ := hsub
    exact into_word_sized_ops_mem_len WORD_SIZE (by decide) op sub hsub
  refine ⟨hmem, ?_⟩
  apply write_ptrace_no_panic_aux
  intro op hop
  exact (hmem op hop).2

/-- Witness for C10: a 9-byte op split into an 8-byte and a 1-byte chunk
is processed without reaching the assertion. -/
theorem write_ptrace_assert_ok_wit :
    write_ptrace WORD_SIZE
        { readOk := fun _ => true, writeOk := fun _ => true,
          readErr := fun _ => .nix 5, writeErr := fun _ => .nix 14 }
        (fun _ => 0) (fun _ => 0)
        ([{ remote_base := 4096, local_ptr := 0, local_len := 9 }].flatMap
          (MemoryOp.into_word_sized_ops WORD_SIZE)) ≠ .panic :=
  (write_ptrace_assert_ok
    { readOk := fun _ => true, writeOk := fun _ => true,
      readErr := fun _ => .nix 5, writeErr := fun _ => .nix 14 }
    (fun _ => 0) (fun _ => 0)
    [{ remote_base := 4096, local_ptr := 0, local_len := 9 }]).2

/-- Permission flags of one region of the tracee's memory map
(`procfs::process::MMPermissions`). -/
structure Perms where
  read : Bool
  write : Bool
  exec : Bool
  shared : Bool
  deriving DecidableEq

/-- One region of the memory-map snapshot: a half-open address range
`[lo, hi)` tagged with permissions. -/
structure MemRegion where
  lo : Nat
  hi : Nat
  perms : Perms
  deriving DecidableEq

/-- Modelled from the spec: the classifier's protection test.
`split_protected` lives in `crate::memory`, which is not among the
provided sources; per §4.2 an (already page-boundary-split) op is
protected exactly when its page lies in one of the given protected
regions. -/
def isProtected (protected_maps : List MemRegion) (op : MemoryOp) : Bool :=
  protected_maps.any fun r =>
    decide (r.lo ≤ op.remote_base) && decide (op.remote_base < r.hi)

/-- Modelled from the spec: `split_protected(protected_maps, ops)` from
`crate::memory` partitions the pending ops into the pair
`(protected, writable)` used by `apply` (writemem.rs line 79). -/
def split_protected (protected_maps : List MemRegion) (ops : List MemoryOp) :
    List MemoryOp × List MemoryOp :=
  ops.partition (isProtected protected_maps)

/-- The snapshot filtering at the start of `WriteMemory::apply`
(writemem.rs lines 72-77): keep exactly the regions lacking write
permission. -/
def protectedMapsOf (maps : List MemRegion) : List MemRegion :=
  maps.filter fun m => !m.perms.write

/-- The classification pipeline of `apply` (writemem.rs lines 72-79). -/
def classifyOps (maps : List MemRegion) (ops : List MemoryOp) :
    List MemoryOp × List MemoryOp :=
  split_protected (protectedMapsOf maps) ops

/-- `isize::MAX` on x86_64. -/
def isizeMax : Nat := 2 ^ 63 - 1

/-- Result of `write_process_vm`: the `panic!("Write size too big")`, a
returned error, or the transferred byte count. -/
inductive VmOutcome where
  | panic
  | error (e : Error)
  | ok (n : Nat)
  deriving DecidableEq

/-- `WriteMemory::write_process_vm` (writemem.rs lines 101-119), with the
`process_vm_writev` kernel call abstracted by its result `vmResult`: sum
the requested lengths, panic when the total exceeds `isize::MAX`,
propagate a kernel error, and return `Error::IncompleteRead` when the
transferred count falls short of the total. -/
def write_process_vm (vmResult : Except Error Nat) (write_ops : List MemoryOp) :
    VmOutcome :=
  let bytes_expected := (write_ops.map MemoryOp.local_len).sum
  if bytes_expected > isizeMax then .panic
  else
    match vmResult with
    | .error e => .error e
    | .ok bytes_read =>
      if bytes_read ≠ bytes_expected then
        .error (.IncompleteRead bytes_expected bytes_read)
      else .ok bytes_read

/-- Environment of one `apply` run: the ptrace oracle, the result of the
single `process_vm_writev` call, and the remote memory right after that
call. -/
structure ApplyEnv where
  ptrace : PtraceEnv
  vmResult : Except Error Nat
  vmMem : Mem

/-- `WriteMemory::apply` (writemem.rs lines 71-90): filter the snapshot
down to the non-writable regions, classify the scheduled ops,
word-decompose the protected ones, run the vectored bulk write over the
writable ops when there are any, then run the ptrace fallback,
propagating the first error. -/
def WriteMemory.apply (W : Nat) (env : ApplyEnv) (localMem mem : Mem)
    (maps : List MemRegion) (write_ops : List MemoryOp) : WriteOutcome :=
  let pw := classifyOps maps write_ops
  let protected_groups := pw.1.flatMap (MemoryOp.into_word_sized_ops W)
  if pw.2.isEmpty then
    write_ptrace W env.ptrace localMem mem protected_groups
  else
    match write_process_vm env.vmResult pw.2 with
    | .panic => .panic
    | .error e => .error e env.vmMem
    | .ok _ => write_ptrace W env.ptrace localMem env.vmMem protected_groups

lemma length_filter_add_length_filter_not (l : List MemoryOp) (p : MemoryOp → Bool) :
    (l.filter p).length + (l.filter fun a => !(p a)).length = l.length := by
  induction l with
  | nil => simp
  | cons a t ih =>
    by_cases hpa : p a <;> simp [List.filter_cons, hpa] <;> omega

/-- C4: classification partitions the page-boundary-split ops into two
disjoint lists; an op lands in the "protected" list exactly when it lies
in a region of the snapshot lacking write permission, and in the
"bulk-eligible" list otherwise. -/
theorem classify_partition (maps : List MemRegion) (ops : List MemoryOp) :
    (∀ op, op ∈ (classifyOps maps ops).1 ↔
        op ∈ ops ∧ isProtected (protectedMapsOf maps) op = true) ∧
    (∀ op, op ∈ (classifyOps maps ops).2 ↔
        op ∈ ops ∧ isProtected (protectedMapsOf maps) op = false) ∧
    (∀ op, op ∈ (classifyOps maps ops).1 → op ∉ (classifyOps maps ops).2) ∧
    (classifyOps maps ops).1.length + (classifyOps maps ops).2.length = ops.length ∧
    (∀ op, isProtected (protectedMapsOf maps) op = true ↔
        ∃ r ∈ maps, r.perms.write = false ∧
          r.lo ≤ op.remote_base ∧ op.remote_base < r.hi) := by
  have hp : classifyOps maps ops =
      (ops.filter (isProtected (protectedMapsOf maps)),
        ops.filter fun op => !(isProtected (protectedMapsOf maps) op)) := by
    simp only [classifyOps, split_protected, List.partition_eq_filter_filter]
    rfl
  refine ⟨?_, ?_, ?_, ?_, ?_⟩
  · intro op
    rw [hp]
    simp [List.mem_filter]
  · intro op
    rw [hp]
    simp [List.mem_filter]
  · intro op h1 h2
    rw [hp] at h1 h2
    simp only [List.mem_filter] at h1 h2
    rw [h1.2] at h2
    simp at h2
  · rw [hp]
    exact length_filter_add_length_filter_not ops _
  · intro op
    simp only [isProtected, List.any_eq_true, Bool.and_eq_true, decide_eq_true_eq,
      protectedMapsOf, List.mem_filter, Bool.not_eq_true']
    constructor
    · rintro ⟨r, ⟨hr, hw⟩, h1, h2⟩
      exact ⟨r, hr, hw, h1, h2⟩
    · rintro ⟨r, hr, hw, h1, h2⟩
      exact ⟨r, ⟨hr, hw⟩, h1, h2⟩

/-- Witness for C4: one read-only region catches the first op, the
second op is bulk-eligible, and together they exhaust the input. -/
theorem classify_partition_wit :
    (classifyOps
        [{ lo := 0, hi := 4096,
           perms := { read := true, write := false, exec := false, shared := false } },
         { lo := 4096, hi := 8192,
           perms := { read := true, write := true, exec := false, shared := false } }]
        [{ remote_base := 100, local_ptr := 0, local_len := 8 },
         { remote_base := 5000, local_ptr := 8, local_len := 8 }]).1.length +
      (classifyOps
        [{ lo := 0, hi := 4096,
           perms := { read := true, write := false, exec := false, shared := false } },
         { lo := 4096, hi := 8192,
           perms := { read := true, write := true, exec := false, shared := false } }]
        [{ remote_base := 100, local_ptr := 0, local_len := 8 },
         { remote_base := 5000, local_ptr := 8, local_len := 8 }]).2.length = 2 :=
  (classify_partition _ _).2.2.2.1

/-- C6 (amended): when the total requested size exceeds `isize::MAX`,
`write_process_vm` fails fast by panicking (`panic!("Write size too
big")`), not by returning an error value. -/
theorem write_process_vm_oversize_panics (vmResult : Except Error Nat)
    (write_ops : List MemoryOp)
    (h : isizeMax < (write_ops.map MemoryOp.local_len).sum) :
    write_process_vm vmResult write_ops = .panic := by
  unfold write_process_vm
  rw [if_pos (by omega)]

/-- Witness for C6's amended statement: a single `2^63`-byte op. -/
theorem write_process_vm_oversize_panics_wit :
    isizeMax < ((List.map MemoryOp.local_len
        [{ remote_base := 0, local_ptr := 0, local_len := 2 ^ 63 }]).sum) ∧
    write_process_vm (Except.ok 0)
        [{ remote_base := 0, local_ptr := 0, local_len := 2 ^ 63 }] = .panic :=
  ⟨by decide, write_process_vm_oversize_panics (Except.ok 0) _ (by decide)⟩

/-- C6 counterexample: on an oversize batch the code panics; the result
is not a value-returned error. -/
theorem write_process_vm_oversize_cex :
    write_process_vm (Except.ok 0)
        [{ remote_base := 0, local_ptr := 0, local_len := 2 ^ 63 }] = .panic ∧
    ∀ e, write_process_vm (Except.ok 0)
        [{ remote_base := 0, local_ptr := 0, local_len := 2 ^ 63 }] ≠ .error e := by
  have he : write_process_vm (Except.ok 0)
      [{ remote_base := 0, local_ptr := 0, local_len := 2 ^ 63 }] = .panic := by
    unfold write_process_vm
    rw [if_pos (by decide)]
  refine ⟨he, fun e h => ?_⟩
  rw [he] at h
  simp at h

/-- C3 (amended): when the single vectored transfer moves `k` bytes but
the bulk-eligible total is a different (representable) amount, `apply`
surfaces the aggregate error `Error::IncompleteRead {req: total, read:
k}` — the incomplete-read variant reused on the write path — and not a
silent partial success. -/
theorem apply_incomplete_bulk (W : Nat) (env : ApplyEnv) (localMem mem : Mem)
    (maps : List MemRegion) (write_ops : List MemoryOp) (k : Nat)
    (hne : (classifyOps maps write_ops).2 ≠ [])
    (hsz : (((classifyOps maps write_ops).2).map MemoryOp.local_len).sum ≤ isizeMax)
    (hvm : env.vmResult = Except.ok k)
    (hk : k ≠ (((classifyOps maps write_ops).2).map MemoryOp.local_len).sum) :
    WriteMemory.apply W env localMem mem maps write_ops =
      .error
        (.IncompleteRead (((classifyOps maps write_ops).2).map MemoryOp.local_len).sum k)
        env.vmMem := by
  have hvmres : write_process_vm env.vmResult (classifyOps maps write_ops).2 =
      .error (.IncompleteRead
        (((classifyOps maps write_ops).2).map MemoryOp.local_len).sum k) := by
    unfold write_process_vm
    rw [if_neg (by omega), hvm]
    simp only []
    rw [if_pos hk]
  simp only [WriteMemory.apply]
  rw [if_neg (by simp [List.isEmpty_iff, hne]), hvmres]

/-- Witness for C3's amended statement: one 16-byte bulk-eligible op, 8
bytes transferred. -/
theorem apply_incomplete_bulk_wit :
    WriteMemory.apply 8
        { ptrace := { readOk := fun _ => true, writeOk := fun _ => true,
                      readErr := fun _ => .nix 5, writeErr := fun _ => .nix 14 },
          vmResult := Except.ok 8, vmMem := fun _ => 1 }
        (fun _ => 0) (fun _ => 0) []
        [{ remote_base := 4096, local_ptr := 0, local_len := 16 }] =
      .error (.IncompleteRead 16 8) (fun _ => 1) :=
  apply_incomplete_bulk 8
    { ptrace := { readOk := fun _ => true, writeOk := fun _ => true,
                  readErr := fun _ => .nix 5, writeErr := fun _ => .nix 14 },
      vmResult := Except.ok 8, vmMem := fun _ => 1 }
    (fun _ => 0) (fun _ => 0) []
    [{ remote_base := 4096, local_ptr := 0, local_len := 16 }] 8
    (by decide) (by decide) rfl (by decide)

/-- C3 counterexample: the aggregate short-transfer error surfaced by
`apply` is `IncompleteRead`, never an `IncompleteWrite`. -/
theorem apply_incomplete_bulk_cex :
    WriteMemory.apply 8
        { ptrace := { readOk := fun _ => true, writeOk := fun _ => true,
                      readErr := fun _ => .nix 5, writeErr := fun _ => .nix 14 },
          vmResult := Except.ok 8, vmMem := fun _ => 1 }
        (fun _ => 0) (fun _ => 0) []
        [{ remote_base := 4096, local_ptr := 0, local_len := 16 }] =
      .error (.IncompleteRead 16 8) (fun _ => 1) ∧
    ∀ req written m,
      WriteMemory.apply 8
          { ptrace := { readOk := fun _ => true, writeOk := fun _ => true,
                        readErr := fun _ => .nix 5, writeErr := fun _ => .nix 14 },
            vmResult := Except.ok 8, vmMem := fun _ => 1 }
          (fun _ => 0) (fun _ => 0) []
          [{ remote_base := 4096, local_ptr := 0, local_len := 16 }] ≠
        .error (.IncompleteWrite req written) m := by
  have he : WriteMemory.apply 8
      { ptrace := { readOk := fun _ => true, writeOk := fun _ => true,
                    readErr := fun _ => .nix 5, writeErr := fun _ => .nix 14 },
        vmResult := Except.ok 8, vmMem := fun _ => 1 }
      (fun _ => 0) (fun _ => 0) []
      [{ remote_base := 4096, local_ptr := 0, local_len := 16 }] =
      .error (.IncompleteRead 16 8) (fun _ => 1) := by
    simp only [WriteMemory.apply]
    rw [if_neg (by decide)]
    have hvmres : write_process_vm (Except.ok 8)
        (classifyOps []
          [{ remote_base := 4096, local_ptr := 0, local_len := 16 }]).2 =
        .error (.IncompleteRead 16 8) := by decide
    rw [hvmres]
  refine ⟨he, fun req written m h => ?_⟩
  rw [he] at h
  simp at h

/-- C5: `apply` returns success or the first encountered error: an error
from the bulk strategy is returned with the fallback never run, and when
the `j`-th fallback word write (in chunk order) is the first to fail,
`apply` returns that error with exactly the first `j` words applied to
the tracee and nothing after attempted. -/
theorem apply_first_error (W : Nat) (env : ApplyEnv) (localMem mem : Mem)
    (maps : List MemRegion) (write_ops : List MemoryOp) :
    (∀ e, (classifyOps maps write_ops).2 ≠ [] →
      write_process_vm env.vmResult (classifyOps maps write_ops).2 = .error e →
      WriteMemory.apply W env localMem mem maps write_ops = .error e env.vmMem) ∧
    (∀ (memB : Mem) (j : Nat) (e : Error),
      ((classifyOps maps write_ops).2 = [] ∧ memB = mem ∨
        (classifyOps maps write_ops).2 ≠ [] ∧
          (∃ n, write_process_vm env.vmResult (classifyOps maps write_ops).2 = .ok n) ∧
          memB = env.vmMem) →
      ∀ (hj : j < ((classifyOps maps write_ops).1.flatMap
          (MemoryOp.into_word_sized_ops W)).length),
      (∀ i, (hi : i < j) →
        opStatus W env.ptrace
          (((classifyOps maps write_ops).1.flatMap
            (MemoryOp.into_word_sized_ops W)).get ⟨i, by omega⟩) = .ok) →
      opStatus W env.ptrace
        (((classifyOps maps write_ops).1.flatMap
          (MemoryOp.into_word_sized_ops W)).get ⟨j, hj⟩) = .fail e →
      WriteMemory.apply W env localMem mem maps write_ops =
        .error e (wordWriteEffects W localMem memB
          (((classifyOps maps write_ops).1.flatMap
            (MemoryOp.into_word_sized_ops W)).take j))) := by
  constructor
  · intro e hne hvm
    simp only [WriteMemory.apply]
    rw [if_neg (by simp [List.isEmpty_iff, hne]), hvm]
  · rintro memB j e (⟨hnil, rfl⟩ | ⟨hne, ⟨n, hok⟩, rfl⟩) hj hoks hfail
    · simp only [WriteMemory.apply]
      rw [if_pos (by simp [List.isEmpty_iff, hnil])]
      exact write_ptrace_first_error W env.ptrace localMem _ _ j e hj hoks hfail
    · simp only [WriteMemory.apply]
      rw [if_neg (by simp [List.isEmpty_iff, hne]), hok]
      exact write_ptrace_first_error W env.ptrace localMem _ _ j e hj hoks hfail

/-- Witness for C5: the bulk transfer fails fatally and `apply` returns
that error with the post-bulk memory, the fallback never run. -/
theorem apply_first_error_wit :
    WriteMemory.apply 8
        { ptrace := { readOk := fun _ => true, writeOk := fun _ => true,
                      readErr := fun _ => .nix 5, writeErr := fun _ => .nix 14 },
          vmResult := Except.error (.nix 3), vmMem := fun _ => 7 }
        (fun _ => 0) (fun _ => 0) []
        [{ remote_base := 4096, local_ptr := 0, local_len := 4 }] =
      .error (.nix 3) (fun _ => 7) :=
  (apply_first_error 8
    { ptrace := { readOk := fun _ => true, writeOk := fun _ => true,
                  readErr := fun _ => .nix 5, writeErr := fun _ => .nix 14 },
      vmResult := Except.error (.nix 3), vmMem := fun _ => 7 }
    (fun _ => 0) (fun _ => 0) []
    [{ remote_base := 4096, local_ptr := 0, local_len := 4 }]).1
    (.nix 3) (by decide) (by decide)

/-- Modelled from the spec: the loop of `MemoryOp::split_on_page_boundary`
from `crate::memory`, which is not among the provided sources.  §4.1: the
op is cut at page boundaries, the first split point at offset
`remote_base mod page_size`, preserving total byte coverage and relative
remote/local offsets; zero-length ops produce no output.  Fuel-indexed as
for the word iterator; `fuel = local_len` suffices for a positive page
size. -/
def pageSplitAux (P : Nat) : Nat → MemoryOp → List MemoryOp
  | 0, _ => []
  | fuel + 1, op =>
    if op.local_len = 0 then []
    else
      let g := min op.local_len (P - op.remote_base % P)
      { remote_base := op.remote_base, local_ptr := op.local_ptr, local_len := g } ::
        pageSplitAux P fuel (op.advance g)

/-- Modelled from the spec: `MemoryOp::split_on_page_boundary` collected
into a list of sub-ops. -/
def MemoryOp.split_on_page_boundary (P : Nat) (op : MemoryOp) : List MemoryOp :=
  pageSplitAux P op.local_len op

lemma sum_pageSplitAux (P : Nat) (hP : 0 < P) :
    ∀ fuel op, op.local_len ≤ fuel →
      ((pageSplitAux P fuel op).map MemoryOp.local_len).sum = op.local_len := by
  intro fuel
  induction fuel with
  | zero =>
    intro op hop
    have h0 : op.local_len = 0 := Nat.le_zero.mp hop
    simp [pageSplitAux, h0]
  | succ fuel ih =>
    intro op hop
    by_cases h0 : op.local_len = 0
    · simp [pageSplitAux, h0]
    · have hmod : op.remote_base % P < P := Nat.mod_lt _ hP
      have hg1 : 1 ≤ min op.local_len (P - op.remote_base % P) := by omega
      have hadv : (op.advance (min op.local_len (P - op.remote_base % P))).local_len ≤ fuel := by
        simp only [MemoryOp.advance]
        omega
      rw [show pageSplitAux P (fuel + 1) op =
          { remote_base := op.remote_base, local_ptr := op.local_ptr,
            local_len := min op.local_len (P - op.remote_base % P) } ::
            pageSplitAux P fuel
              (op.advance (min op.local_len (P - op.remote_base % P))) from by
        simp [pageSplitAux, h0]]
      simp only [List.map_cons, List.sum_cons]
      rw [ih _ hadv]
      simp only [MemoryOp.advance]
      omega

lemma mem_pageSplitAux (P : Nat) (hP : 0 < P) :
    ∀ fuel op, ∀ sub ∈ pageSplitAux P fuel op,
      0 < sub.local_len ∧ sub.remote_base % P + sub.local_len ≤ P := by
  intro fuel
  induction fuel with
  | zero =>
    intro op sub hsub
    simp [pageSplitAux] at hsub
  | succ fuel ih =>
    intro op sub hsub
    by_cases h0 : op.local_len = 0
    · simp [pageSplitAux, h0] at hsub
    · have hmod : op.remote_base % P < P := Nat.mod_lt _ hP
      rw [show pageSplitAux P (fuel + 1) op =
          { remote_base := op.remote_base, local_ptr := op.local_ptr,
            local_len := min op.local_len (P - op.remote_base % P) } ::
            pageSplitAux P fuel
              (op.advance (min op.local_len (P - op.remote_base % P))) from by
        simp [pageSplitAux, h0]] at hsub
      rcases List.mem_cons.mp hsub with heq | htail
      · subst heq
        simp only []
        omega
      · exact ih _ sub htail

lemma shape_pageSplitAux (P : Nat) :
    ∀ (fuel b l p q : Nat),
      (pageSplitAux P fuel { remote_base := b, local_ptr := p, local_len := l }).map
          (fun s => (s.remote_base, s.local_len)) =
        (pageSplitAux P fuel { remote_base := b, local_ptr := q, local_len := l }).map
          (fun s => (s.remote_base, s.local_len)) := by
  intro fuel
  induction fuel with
  | zero =>
    intro b l p q
    simp [pageSplitAux]
  | succ fuel ih =>
    intro b l p q
    by_cases h0 : l = 0
    · simp [pageSplitAux, h0]
    · simp only [pageSplitAux, h0, if_neg, ite_false, List.map_cons, MemoryOp.advance]
      rw [List.cons.injEq]
      exact ⟨rfl, ih (b + min l (P - b % P)) (l - min l (P - b % P)) _ _⟩

/-- C7, stated over the embedding: for page size `P` the sub-op lengths
sum to the op's length, every sub-op is non-empty and lies inside a
single page, the head sub-op runs from the original base up to the next
page boundary (so the first split point is at offset
`remote_base mod P`, independent of the local pointer), and a
zero-length op produces no sub-ops. -/
def pageSplitSpec (P : Nat) (op : MemoryOp) : Prop :=
  let subs := op.split_on_page_boundary P
  (subs.map MemoryOp.local_len).sum = op.local_len ∧
  (∀ sub ∈ subs, 0 < sub.local_len ∧ sub.remote_base % P + sub.local_len ≤ P) ∧
  (op.local_len ≠ 0 → subs.head? = some
    { remote_base := op.remote_base, local_ptr := op.local_ptr,
      local_len := min op.local_len (P - op.remote_base % P) }) ∧
  (∀ q : Nat,
    ((MemoryOp.mk op.remote_base q op.local_len).split_on_page_boundary P).map
        (fun s => (s.remote_base, s.local_len)) =
      subs.map fun s => (s.remote_base, s.local_len)) ∧
  (op.local_len = 0 → subs = [])

/-- C7: for every non-empty `MemoryOp` of length `L` and page size
`P > 0`, `split_on_page_boundary` produces sub-ops whose lengths sum to
`L`, each inside exactly one page, with the first split point at offset
`remote_base mod P` independent of local buffer alignment; a zero-length
op produces no sub-ops. -/
theorem split_on_page_boundary_correct (P : Nat) (op : MemoryOp) (hP : 0 < P) :
    pageSplitSpec P op := by
  unfold pageSplitSpec
  refine ⟨?_, ?_, ?_, ?_, ?_⟩
  · exact sum_pageSplitAux P hP op.local_len op (Nat.le_refl _)
  · exact mem_pageSplitAux P hP op.local_len op
  · intro h0
    unfold MemoryOp.split_on_page_boundary
    rcases Nat.exists_eq_succ_of_ne_zero h0 with ⟨n, hn⟩
    rw [hn]
    rw [show pageSplitAux P (n + 1) op =
        { remote_base := op.remote_base, local_ptr := op.local_ptr,
          local_len := min op.local_len (P - op.remote_base % P) } ::
          pageSplitAux P n
            (op.advance (min op.local_len (P - op.remote_base % P))) from by
      simp [pageSplitAux, h0]]
    rw [List.head?_cons, ← hn]
  · intro q
    unfold MemoryOp.split_on_page_boundary
    exact shape_pageSplitAux P op.local_len op.remote_base op.local_len q op.local_ptr
  · intro h0
    unfold MemoryOp.split_on_page_boundary
    rw [h0]
    rfl

/-- Witness for C7: a 100-byte op starting 6 bytes before a 4096-byte
page boundary. -/
theorem split_on_page_boundary_correct_wit :
    0 < 4096 ∧
    pageSplitSpec 4096 { remote_base := 4090, local_ptr := 7, local_len := 100 } :=
  ⟨by decide, split_on_page_boundary_correct 4096
    { remote_base := 4090, local_ptr := 7, local_len := 100 } (by decide)⟩

/-- Outcome of a `ReadMemory::...().apply()` call as the systrace
formatters observe it: `none` is success, `some e` the returned error. -/
abbrev ReadOutcome := Option Error

/-- `format_fdset` (systrace.rs lines 90-106), the `Debug` rendering of
the successfully decoded fd set abstracted as `rendered`: a NULL pointer
prints as `"NULL"` and any failed read (`read_op.is_err()`) as the
`"???"` placeholder. -/
def format_fdset (addr : Nat) (res : ReadOutcome) (rendered : String) : String :=
  if addr = 0 then "NULL"
  else
    match res with
    | some _ => "???"
    | none => rendered

/-- The tail of `format_bytes_u8` (systrace.rs lines 128-133): render as
a byte string when valid UTF-8, else as hex.  `std::str::from_utf8` and
the `{bytes:x?}` formatting are abstracted as `utf8` and `hex`. -/
def renderBytes (utf8 : List Nat → Option String) (hex : List Nat → String)
    (bytes : List Nat) : String :=
  match utf8 bytes with
  | some s => "b\"" ++ s ++ "\""
  | none => hex bytes

/-- `format_bytes_u8` (systrace.rs lines 109-134): read up to
`min len 20` bytes; on `IncompleteRead` keep the prefix actually read;
on any other error return the placeholder. -/
def format_bytes_u8 (utf8 : List Nat → Option String) (hex : List Nat → String)
    (mem : Mem) (addr len : Nat) (res : ReadOutcome) : String :=
  if addr = 0 then "NULL"
  else
    let count := min len 20
    match res with
    | none => renderBytes utf8 hex (bytesAt mem addr count)
    | some (.IncompleteRead _ read) => renderBytes utf8 hex (bytesAt mem addr read)
    | some _ => "???"

/-- `format_array::<T>` (systrace.rs lines 137-161), with `size_of::<T>`
as `sizeT` and the `{values:?}` rendering of the first `n` decoded
elements abstracted as `renderVals n`: read up to `min len 20` elements;
on `IncompleteRead` keep the `read / sizeT` fully read elements; on any
other error return the placeholder. -/
def format_array (sizeT : Nat) (renderVals : Nat → String) (addr len : Nat)
    (res : ReadOutcome) : String :=
  if addr = 0 then "NULL"
  else
    let count := min len 20
    match res with
    | none => renderVals count
    | some (.IncompleteRead _ read) => renderVals (read / sizeT)
    | some _ => "???"

/-- The tail of `format_str` (systrace.rs lines 183-190): lossy UTF-8
decode, escape, truncate to 57 chars plus `".."` when over 60, and
quote.  `String::from_utf8_lossy` and `escape_default` are abstracted. -/
def renderQuotedStr (utf8Lossy : List Nat → String)
    (escapeDefault : String → String) (bytes : List Nat) : String :=
  let data := escapeDefault (utf8Lossy bytes)
  let data := if data.length > 60 then data.take 57 ++ ".." else data
  "\"" ++ data ++ "\""

/-- `format_str` (systrace.rs lines 164-191): read up to
`min len (60 * size_of::<char>())` bytes (240); on `IncompleteRead` keep
the prefix actually read; on any other error return the placeholder. -/
def format_str (utf8Lossy : List Nat → String)
    (escapeDefault : String → String) (mem : Mem) (addr len : Nat)
    (res : ReadOutcome) : String :=
  if addr = 0 then "NULL"
  else
    let count := min len 240
    match res with
    | none => renderQuotedStr utf8Lossy escapeDefault (bytesAt mem addr count)
    | some (.IncompleteRead _ read) =>
      renderQuotedStr utf8Lossy escapeDefault (bytesAt mem addr read)
    | some _ => "???"

/-- `CString::from_vec_with_nul`: succeeds exactly when the buffer ends
with the only nul byte, yielding the content without it. -/
def cstringFromVecWithNul (bytes : List Nat) : Option (List Nat) :=
  if bytes.getLast? = some 0 ∧ bytes.dropLast.contains 0 = false then
    some bytes.dropLast
  else none

/-- The tail of `read_c_str` (systrace.rs lines 212-225): cut at the
first nul (appending one if none was found, after dropping the last
byte), then convert; a malformed C string renders as the placeholder. -/
def cstrRender (utf8Lossy : List Nat → String) (bytes : List Nat) : String :=
  let bytes2 :=
    match bytes.findIdx? (fun b => b == 0) with
    | some terminator => bytes.take (terminator + 1)
    | none => bytes.dropLast ++ [0]
  match cstringFromVecWithNul bytes2 with
  | some content => utf8Lossy content
  | none => "???"

/-- `read_c_str` (systrace.rs lines 194-226): read half a page; on
`IncompleteRead` truncate to the bytes actually read; on any other error
return the placeholder. -/
def read_c_str (utf8Lossy : List Nat → String) (pageSize : Nat) (mem : Mem)
    (addr : Nat) (res : ReadOutcome) : String :=
  if addr = 0 then "NULL"
  else
    let size := pageSize / 2
    match res with
    | some (.IncompleteRead _ read) =>
      cstrRender utf8Lossy (bytesAt mem addr (min read size))
    | some _ => "???"
    | none => cstrRender utf8Lossy (bytesAt mem addr size)

/-- C8 (amended): every memory-reading formatter of the syscall decoder
returns a string for every read outcome and never propagates the error:
`format_fdset` renders the fixed `"???"` placeholder for every failed
read, the other four render the placeholder for every fatal
(non-`IncompleteRead`) error and render the successfully read prefix for
an `IncompleteRead`. -/
theorem formatters_error_handling :
    (∀ (addr : Nat) (rendered : String) (e : Error), addr ≠ 0 →
      format_fdset addr (some e) rendered = "???") ∧
    (∀ utf8 hex mem (addr len : Nat) (e : Error), addr ≠ 0 →
      (∀ req read, e ≠ .IncompleteRead req read) →
      format_bytes_u8 utf8 hex mem addr len (some e) = "???") ∧
    (∀ utf8 hex mem (addr len req read : Nat), addr ≠ 0 →
      format_bytes_u8 utf8 hex mem addr len (some (.IncompleteRead req read)) =
        renderBytes utf8 hex (bytesAt mem addr read)) ∧
    (∀ (sizeT : Nat) renderVals (addr len : Nat) (e : Error), addr ≠ 0 →
      (∀ req read, e ≠ .IncompleteRead req read) →
      format_array sizeT renderVals addr len (some e) = "???") ∧
    (∀ (sizeT : Nat) renderVals (addr len req read : Nat), addr ≠ 0 →
      format_array sizeT renderVals addr len (some (.IncompleteRead req read)) =
        renderVals (read / sizeT)) ∧
    (∀ u esc mem (addr len : Nat) (e : Error), addr ≠ 0 →
      (∀ req read, e ≠ .IncompleteRead req read) →
      format_str u esc mem addr len (some e) = "???") ∧
    (∀ u esc mem (addr len req read : Nat), addr ≠ 0 →
      format_str u esc mem addr len (some (.IncompleteRead req read)) =
        renderQuotedStr u esc (bytesAt mem addr read)) ∧
    (∀ u (pageSize : Nat) mem (addr : Nat) (e : Error), addr ≠ 0 →
      (∀ req read, e ≠ .IncompleteRead req read) →
      read_c_str u pageSize mem addr (some e) = "???") ∧
    (∀ u (pageSize : Nat) mem (addr req read : Nat), addr ≠ 0 →
      read_c_str u pageSize mem addr (some (.IncompleteRead req read)) =
        cstrRender u (bytesAt mem addr (min read (pageSize / 2)))) := by
  refine ⟨?_, ?_, ?_, ?_, ?_, ?_, ?_, ?_, ?_⟩
  · intro addr rendered e h
    simp [format_fdset, h]
  · intro utf8 hex mem addr len e h hfatal
    cases e with
    | IncompleteRead req read => exact absurd rfl (hfatal req read)
    | IncompleteWrite req written => simp [format_bytes_u8, h]
    | nix errno => simp [format_bytes_u8, h]
  · intro utf8 hex mem addr len req read h
    simp [format_bytes_u8, h]
  · intro sizeT renderVals addr len e h hfatal
    cases e with
    | IncompleteRead req read => exact absurd rfl (hfatal req read)
    | IncompleteWrite req written => simp [format_array, h]
    | nix errno => simp [format_array, h]
  · intro sizeT renderVals addr len req read h
    simp [format_array, h]
  · intro u esc mem addr len e h hfatal
    cases e with
    | IncompleteRead req read => exact absurd rfl (hfatal req read)
    | IncompleteWrite req written => simp [format_str, h]
    | nix errno => simp [format_str, h]
  · intro u esc mem addr len req read h
    simp [format_str, h]
  · intro u pageSize mem addr e h hfatal
    cases e with
    | IncompleteRead req read => exact absurd rfl (hfatal req read)
    | IncompleteWrite req written => simp [read_c_str, h]
    | nix errno => simp [read_c_str, h]
  · intro u pageSize mem addr req read h
    simp [read_c_str, h]

/-- Witness for C8's amended statement: a fatal error renders the
placeholder. -/
theorem formatters_error_handling_wit :
    format_fdset 16 (some (.nix 5)) "[stdout]" = "???" :=
  formatters_error_handling.1 16 "[stdout]" (.nix 5) (by decide)

/-- C8 counterexample: a failed read (`IncompleteRead`) through
`format_str` does not render the fixed placeholder — the successfully
read prefix is rendered instead. -/
theorem format_str_incomplete_cex :
    format_str (fun _ => "aaa") (fun s => s) (fun _ => 97) 5 10
        (some (.IncompleteRead 10 3)) ≠ "???" := by
  decide

/-- The syscall codes matched by `decode`'s dispatch table (systrace.rs
lines 730-1234), as their Linux x86_64 `libc::SYS_*` values, in match
order: read, write, open, close, stat, fstat, lstat, poll, lseek, mmap,
mprotect, munmap, brk, rt_sigaction, rt_sigprocmask, rt_sigreturn,
ioctl, pread64, pwrite64, readv, writev, access, pipe, pipe2, select,
pselect6, sched_yield, mremap, msync, mincore, madvise, shmget, shmat,
shmctl, dup, dup2, pause, nanosleep, getitimer, alarm, setitimer,
getpid, sendfile, socket, connect, accept, sendto, recvfrom, sendmsg,
recvmsg, shutdown, bind, listen, getsockname, getpeername, socketpair,
setsockopt, getsockopt, clone, fork, vfork, execve, openat,
set_tid_address, set_robust_list, getrandom, newfstatat, futex, getuid,
syslog, getgid, setuid, setgid, geteuid, getegid, setpgid, getppid,
getpgrp, setsid, setreuid, setregid, getgroups, setgroups, setresuid,
getresuid, setresgid, getresgid, getpgid, setfsuid, setfsgid, getsid,
exit, exit_group. -/
def knownSyscalls : List Int :=
  [0, 1, 2, 3, 4, 5, 6, 7, 8, 9,
   10, 11, 12, 13, 14, 15, 16, 17, 18, 19,
   20, 21, 22, 293, 23, 270, 24, 25, 26, 27,
   28, 29, 30, 31, 32, 33, 34, 35, 36, 37,
   38, 39, 40, 41, 42, 43, 44, 45, 46, 47,
   48, 49, 50, 51, 52, 53, 54, 55, 56, 57,
   58, 59, 257, 218, 273, 318, 262, 202, 102, 103,
   104, 105, 106, 107, 108, 109, 110, 111, 112, 113,
   114, 115, 116, 117, 118, 119, 120, 121, 122, 123,
   124, 60, 231]

/-- `decode` (systrace.rs lines 724-1240): start from the decimal
syscall number and an opening parenthesis, dispatch on the code to
render the arguments (the per-arm `print_delimited!` bodies abstracted
as `argsRendered`), with the default arm appending `".."`, and close the
parenthesis. -/
def decode (argsRendered : Int → (Fin 6 → Nat) → String) (syscall : Int)
    (args : Fin 6 → Nat) : String :=
  let func := toString syscall ++ "("
  let body := if syscall ∈ knownSyscalls then argsRendered syscall args else ".."
  func ++ body ++ ")"

/-- C9: for every syscall code without an entry in `decode`'s dispatch
table and all argument values, `decode` returns the code's decimal
number followed by `"(..)"`. -/
theorem decode_unknown (argsRendered : Int → (Fin 6 → Nat) → String)
    (syscall : Int) (args : Fin 6 → Nat) (h : syscall ∉ knownSyscalls) :
    decode argsRendered syscall args = toString syscall ++ "(..)" := by
  unfold decode
  simp only [if_neg h]
  rw [String.append_assoc, String.append_assoc]
  congr 1

/-- Witness for C9: syscall code 999 is not in the table and renders as
`999(..)`. -/
theorem decode_unknown_wit :
    (999 : Int) ∉ knownSyscalls ∧
    decode (fun _ _ => "") 999 (fun _ => 0) = toString (999 : Int) ++ "(..)" :=
  ⟨by decide, decode_unknown (fun _ _ => "") 999 (fun _ => 0) (by decide)⟩

end Bite
